import Mathlib

/-!
Shallow embedding of the shardb concurrent sharded map (src/db/map.go).

Go strings are modelled as `List Char`; Go maps as association lists with
Go-map semantics (replace on existing key, append otherwise); the shared
`*ShardOffset` pointers of one `Set` call are modelled as indices into a
per-shard descriptor arena, so that a `Deleted` flip through one index key
is visible through every other key of the same record.  Loops whose Go
source has no structural bound are given an explicit fuel parameter; a
`none` result means the fuel ran out, and theorems about divergent inputs
quantify over all fuels.  Locking and goroutines are dropped: every public
operation is modelled as the sequential state transformer it performs
under its locks.
-/

namespace Shardb

/-- Go strings, viewed as their character sequences. -/
abbrev Str := List Char

/-- Coercion helper from Lean string literals to the model's strings. -/
def str (s : String) : Str := s.data

/-! ### Association lists with Go map semantics -/

/-- Go map read: first binding of the key, if any. -/
def alGet {α : Type} : List (Str × α) → Str → Option α
  | [], _ => none
  | (k, v) :: rest, key => if k = key then some v else alGet rest key

/-- Go map write: replace the binding if the key is present, append otherwise. -/
def alSet {α : Type} : List (Str × α) → Str → α → List (Str × α)
  | [], key, v => [(key, v)]
  | (k, w) :: rest, key, v =>
    if k = key then (k, v) :: rest else (k, w) :: alSet rest key v

theorem alGet_alSet_self {α : Type} (l : List (Str × α)) (k : Str) (v : α) :
    alGet (alSet l k v) k = some v := by
  induction l with
  | nil => simp [alSet, alGet]
  | cons p rest ih =>
    obtain ⟨k0, w⟩ := p
    simp only [alSet]
    by_cases h : k0 = k
    · rw [if_pos h]; simp only [alGet]; rw [if_pos h]
    · rw [if_neg h]; simp only [alGet]; rw [if_neg h]; exact ih

theorem alGet_alSet_ne {α : Type} (l : List (Str × α)) (k k' : Str) (v : α)
    (h : k' ≠ k) : alGet (alSet l k v) k' = alGet l k' := by
  induction l with
  | nil =>
    simp only [alSet, alGet]
    rw [if_neg (fun hh => h hh.symm)]
  | cons p rest ih =>
    obtain ⟨k0, w⟩ := p
    simp only [alSet]
    by_cases h0 : k0 = k
    · rw [if_pos h0]
      simp only [alGet]
      rw [if_neg (fun hh => h (h0.symm.trans hh).symm),
        if_neg (fun hh => h (h0.symm.trans hh).symm)]
    · rw [if_neg h0]
      simp only [alGet]
      split
      · rfl
      · exact ih

theorem alGet_ne_nil {α : Type} (l : List (Str × α)) (k : Str) (v : α)
    (h : alGet l k = some v) : l ≠ [] := by
  intro hl; subst hl; simp [alGet] at h

/-- A key bound before `alSet` is still bound after it. -/
theorem alGet_alSet_isSome {α : Type} (l : List (Str × α)) (k key : Str) (v : α)
    (h : (alGet l k).isSome) : (alGet (alSet l key v) k).isSome := by
  by_cases hk : k = key
  · subst hk; rw [alGet_alSet_self]; rfl
  · rw [alGet_alSet_ne l key k v hk]; exact h

/-- A key bound after `alSet` was bound before or is the written key. -/
theorem alGet_isSome_of_alSet {α : Type} (l : List (Str × α)) (k key : Str) (v : α)
    (h : (alGet (alSet l key v) k).isSome) : (alGet l k).isSome ∨ k = key := by
  by_cases hk : k = key
  · right; exact hk
  · left; rw [alGet_alSet_ne l key k v hk] at h; exact h

/-! ### Decimal rendering of ordinals (Go `strconv.Itoa` on non-negative values) -/

/-- The decimal digit character for `d`. -/
def digitChar (d : Nat) : Char := Char.ofNat (48 + d)

/-- Decimal rendering, structurally recursive on a fuel that dominates the
number (so that concrete keys evaluate inside the kernel). -/
def itoaCharsAux : Nat → Nat → List Char
  | 0, _ => []
  | fuel + 1, n =>
    if n < 10 then [digitChar n]
    else itoaCharsAux fuel (n / 10) ++ [digitChar (n % 10)]

/-- Decimal rendering of a natural number, most significant digit first. -/
def itoaChars (n : Nat) : List Char := itoaCharsAux (n + 1) n

theorem itoaCharsAux_congr : ∀ f1 f2 n : Nat, n < f1 → n < f2 →
    itoaCharsAux f1 n = itoaCharsAux f2 n := by
  intro f1
  induction f1 with
  | zero => intro f2 n h1 _; omega
  | succ f1 ih =>
    intro f2 n h1 h2
    cases f2 with
    | zero => omega
    | succ f2 =>
      simp only [itoaCharsAux]
      by_cases hn : n < 10
      · simp [hn]
      · have hd : n / 10 < n := Nat.div_lt_self (by omega) (by omega)
        simp only [hn, if_false]
        rw [ih f2 (n / 10) (by omega) (by omega)]

theorem itoaChars_lt (n : Nat) (h : n < 10) : itoaChars n = [digitChar n] := by
  simp [itoaChars, itoaCharsAux, h]

theorem itoaChars_ge (n : Nat) (h : ¬ n < 10) :
    itoaChars n = itoaChars (n / 10) ++ [digitChar (n % 10)] := by
  have hd : n / 10 < n := Nat.div_lt_self (by omega) (by omega)
  unfold itoaChars
  rw [itoaCharsAux, if_neg h,
    itoaCharsAux_congr n (n / 10 + 1) (n / 10) (by omega) (by omega)]

theorem itoaChars_ne_nil (n : Nat) : itoaChars n ≠ [] := by
  by_cases h : n < 10
  · rw [itoaChars_lt n h]; simp
  · rw [itoaChars_ge n h]; simp

theorem digitChar_inj_fin : ∀ a b : Fin 10, digitChar a = digitChar b → a = b := by decide

theorem digitChar_inj {a b : Nat} (ha : a < 10) (hb : b < 10)
    (h : digitChar a = digitChar b) : a = b := by
  have := digitChar_inj_fin ⟨a, ha⟩ ⟨b, hb⟩ h
  exact congrArg Fin.val this

theorem itoaChars_digits : ∀ n : Nat, ∀ c ∈ itoaChars n, ∃ d : Fin 10, c = digitChar d := by
  intro n
  induction n using Nat.strong_induction_on with
  | _ n ih =>
    intro c hc
    by_cases h : n < 10
    · rw [itoaChars_lt n h] at hc
      simp at hc
      exact ⟨⟨n, h⟩, hc⟩
    · rw [itoaChars_ge n h] at hc
      rcases List.mem_append.mp hc with hc' | hc'
      · exact ih (n / 10) (Nat.div_lt_self (by omega) (by omega)) c hc'
      · simp at hc'
        exact ⟨⟨n % 10, Nat.mod_lt _ (by omega)⟩, hc'⟩

theorem digitChar_ne_colon : ∀ d : Fin 10, digitChar d ≠ ':' := by decide

theorem itoaChars_no_colon (n : Nat) : ∀ c ∈ itoaChars n, c ≠ ':' := by
  intro c hc
  obtain ⟨d, hd⟩ := itoaChars_digits n c hc
  exact hd ▸ digitChar_ne_colon d

/-- The first character of a decimal rendering is a digit. -/
theorem itoaChars_head : ∀ n : Nat, ∃ d : Fin 10, ∃ tail : List Char,
    itoaChars n = digitChar d :: tail := by
  intro n
  induction n using Nat.strong_induction_on with
  | _ n ih =>
    by_cases h : n < 10
    · exact ⟨⟨n, h⟩, [], itoaChars_lt n h⟩
    · obtain ⟨d, tail, htl⟩ := ih (n / 10) (Nat.div_lt_self (by omega) (by omega))
      refine ⟨d, tail ++ [digitChar (n % 10)], ?_⟩
      rw [itoaChars_ge n h, htl]
      simp

/-- Lists of non-colon characters followed by a colon-separated remainder split uniquely. -/
theorem append_colon_inj : ∀ (a b f g : List Char), (∀ c ∈ a, c ≠ ':') →
    (∀ c ∈ b, c ≠ ':') → a ++ ':' :: f = b ++ ':' :: g → a = b ∧ f = g := by
  intro a
  induction a with
  | nil =>
    intro b f g _ hb h
    cases b with
    | nil => simp at h; exact ⟨rfl, h⟩
    | cons c b' =>
      simp at h
      exact absurd h.1.symm (hb c (by simp))
  | cons c a' ih =>
    intro b f g ha hb h
    cases b with
    | nil =>
      simp at h
      exact absurd h.1 (ha c (by simp))
    | cons c' b' =>
      simp at h
      obtain ⟨hc, hrest⟩ := h
      obtain ⟨ha', hf⟩ := ih b' f g (fun x hx => ha x (by simp [hx]))
        (fun x hx => hb x (by simp [hx])) hrest
      exact ⟨by simp [hc, ha'], hf⟩

theorem itoaChars_inj : ∀ m n : Nat, itoaChars m = itoaChars n → m = n := by
  intro m
  induction m using Nat.strong_induction_on with
  | _ m ih =>
    intro n h
    by_cases hm : m < 10 <;> by_cases hn : n < 10
    · rw [itoaChars_lt m hm, itoaChars_lt n hn] at h
      simp at h
      exact digitChar_inj hm hn h
    · rw [itoaChars_lt m hm, itoaChars_ge n hn] at h
      obtain ⟨d, tail, htl⟩ := itoaChars_head (n / 10)
      rw [htl] at h
      simp at h
    · rw [itoaChars_ge m hm, itoaChars_lt n hn] at h
      obtain ⟨d, tail, htl⟩ := itoaChars_head (m / 10)
      rw [htl] at h
      simp at h
    · rw [itoaChars_ge m hm, itoaChars_ge n hn] at h
      have hlast := List.append_inj' h rfl
      obtain ⟨hpre, hdig⟩ := hlast
      simp at hdig
      have h1 : m / 10 = n / 10 := ih (m / 10) (Nat.div_lt_self (by omega) (by omega)) _ hpre
      have h2 : m % 10 = n % 10 :=
        digitChar_inj (Nat.mod_lt _ (by omega)) (Nat.mod_lt _ (by omega)) hdig
      omega

/-! ### Index key schema -/

/-- Non-unique index key `"<ordinal>:<fingerprint>"` composed as in map.go. -/
def ordKey (i : Nat) (f : Str) : Str := itoaChars i ++ ':' :: f

theorem ordKey_inj {i j : Nat} {f g : Str} (h : ordKey i f = ordKey j g) :
    i = j ∧ f = g := by
  obtain ⟨ha, hf⟩ := append_colon_inj (itoaChars i) (itoaChars j) f g
    (itoaChars_no_colon i) (itoaChars_no_colon j) h
  exact ⟨itoaChars_inj i j ha, hf⟩

/-- A key that is not of the non-unique `"<ordinal>:<fingerprint>"` shape. -/
def notOrdinalForm (k : Str) : Prop := ∀ i f, k ≠ ordKey i f

/-- Keys whose first character is not a decimal digit are never ordinal keys. -/
theorem notOrdinalForm_of_head (ch : Char) (rest : Str)
    (hc : ∀ d : Fin 10, ch ≠ digitChar d) : notOrdinalForm (ch :: rest) := by
  intro i f h
  obtain ⟨d, tail, htl⟩ := itoaChars_head i
  rw [ordKey, htl] at h
  simp at h
  exact hc d h.1

/-! ### Hashing (fnv32, map.go lines 458-466) -/

/-- UTF-8 encoding of one character (Go strings are byte sequences; `key[i]`
in `fnv32` reads the i-th UTF-8 byte). -/
def utf8Bytes (c : Char) : List Nat :=
  let n := c.toNat
  if n < 128 then [n]
  else if n < 2048 then [192 + n / 64, 128 + n % 64]
  else if n < 65536 then [224 + n / 4096, 128 + n / 64 % 64, 128 + n % 64]
  else [240 + n / 262144, 128 + n / 4096 % 64, 128 + n / 64 % 64, 128 + n % 64]

/-- The UTF-8 bytes of a Go string. -/
def strBytes (key : Str) : List Nat := (key.map utf8Bytes).flatten

/-- The byte fold of map.go `fnv32`: seed 2166136261; per byte, first multiply
the hash by the prime 16777619 (in 32-bit modular arithmetic), then XOR the
byte in.  This is the FNV-1 byte order. -/
def fnvBytes (bytes : List Nat) : Nat :=
  bytes.foldl (fun hash b => (hash * 16777619 % 4294967296) ^^^ b) 2166136261

/-- `fnv32` (map.go lines 458-466). -/
def fnv32 (key : Str) : Nat := fnvBytes (strBytes key)

/-- The hash exactly as claim C4 words it (FNV-1a: per byte, XOR the byte into
the hash, then multiply by the prime).  Spec-side definition, kept only to be
compared against the source-side `fnv32`. -/
def fnv32Claim (key : Str) : Nat :=
  (strBytes key).foldl (fun hash b => (hash ^^^ b) * 16777619 % 4294967296) 2166136261

/-! ### Data model (map.go lines 21-33) -/

/-- Number of shards (map.go line 16). -/
def SHARD_COUNT : Nat := 32

/-- Offset descriptor `{Start, Length, Deleted}` (map.go lines 29-33). -/
structure ShardOffset where
  Start : Nat
  Length : Nat
  Deleted : Bool
deriving DecidableEq

/-- One shard.  The struct itself lives in a file outside src/; its fields are
the ones map.go reads and writes: `Id`, `Items` (offset index), the capacity
map, and the shard file.  Go's `map[string]*ShardOffset` is modelled by an
association list from key to an index into the per-shard descriptor arena
`descs`, so that several keys can share one descriptor object the way shared
`*ShardOffset` pointers do. -/
structure ConcurrentMapShared where
  Id : Nat
  Items : List (Str × Nat)
  descs : List ShardOffset
  capacity : List (Str × Nat)
  file : List Nat
deriving DecidableEq

instance : Inhabited ConcurrentMapShared := ⟨⟨0, [], [], [], []⟩⟩

/-- The engine (map.go lines 21-27).  The sync destination and mutexes carry
no sequential meaning and are dropped. -/
structure ConcurrentMap where
  Shared : List ConcurrentMapShared
  counter : Nat
deriving DecidableEq

/-- Modelled from the spec: `GetCapacityKey` lives in a source file missing
from src/ (only its call sites are present).  Per the spec's data model, the
capacity map takes a fingerprint to the highest ordinal currently assigned;
a Go map read yields the zero value 0 for an absent fingerprint. -/
def ConcurrentMapShared.GetCapacityKey (sh : ConcurrentMapShared) (k : Str) : Nat :=
  (alGet sh.capacity k).getD 0

/-- Modelled from the spec: `SetCapacityKey` stores a value under a
fingerprint in the capacity map (Go map write). -/
def ConcurrentMapShared.SetCapacityKey (sh : ConcurrentMapShared) (k : Str) (v : Nat) :
    ConcurrentMapShared :=
  {sh with capacity := alSet sh.capacity k v}

/-- Read `shard.Items[k]` and dereference the descriptor pointer. -/
def ConcurrentMapShared.getItem (sh : ConcurrentMapShared) (k : Str) : Option ShardOffset :=
  match alGet sh.Items k with
  | some i => sh.descs.get? i
  | none => none

/-- Update the descriptor stored at arena position `i` in place. -/
def listModify (l : List ShardOffset) (i : Nat) (f : ShardOffset → ShardOffset) :
    List ShardOffset :=
  match l.get? i with
  | some d => l.set i (f d)
  | none => l

/-- Go's `item.Deleted = b` through the pointer stored under key `k`: the
descriptor in the arena is updated in place, so every key sharing the
pointer observes the flip. -/
def ConcurrentMapShared.setDeletedKey (sh : ConcurrentMapShared) (k : Str) (b : Bool) :
    ConcurrentMapShared :=
  match alGet sh.Items k with
  | some i => {sh with descs := listModify sh.descs i (fun d => {d with Deleted := b})}
  | none => sh

/-- Index descriptor supplied by the host (`FullDataIndex`, declared outside
src/; map.go reads its `Field`, `Data` and `Unique` fields, which the spec's
data model lists as `{field, data, unique}`). -/
structure FullDataIndex where
  Field : Str
  Data : Str
  Unique : Bool
deriving DecidableEq

/-! ### Routing (map.go lines 103-116) -/

/-- Shard index chosen by `GetShard`: `uint(fnv32(key)) % uint(SHARD_COUNT)`. -/
def getShardIdx (key : Str) : Nat := fnv32 key % SHARD_COUNT

/-- `GetShard` (map.go lines 103-105). -/
def ConcurrentMap.GetShard (m : ConcurrentMap) (key : Str) : ConcurrentMapShared :=
  (m.Shared.get? (getShardIdx key)).getD default

/-- `GetNextShard` (map.go lines 107-116): pre-increment the counter, wrap at
32, and use that shard.  Returns the chosen index together with the engine
holding the advanced counter. -/
def ConcurrentMap.getNextShardIdx (m : ConcurrentMap) : Nat × ConcurrentMap :=
  let c0 := m.counter + 1
  let c := if 32 ≤ c0 then 0 else c0
  (c, {m with counter := c})

/-- `SetCounterIndex` (map.go lines 67-75).  The Go guard is
`value >= uint64(SHARD_COUNT) || value < 0`; the second disjunct is vacuous
for an unsigned value, as it is here for `Nat`. -/
def ConcurrentMap.SetCounterIndex (m : ConcurrentMap) (value : Nat) :
    Except String ConcurrentMap :=
  if SHARD_COUNT ≤ value then Except.error ("invalid value")
  else Except.ok {m with counter := value}

/-- Replace shard `i` of the engine (models in-place mutation through the
shard pointer). -/
def ConcurrentMap.setShardAt (m : ConcurrentMap) (i : Nat) (sh : ConcurrentMapShared) :
    ConcurrentMap :=
  {m with Shared := m.Shared.set i sh}

/-! ### Reads (map.go lines 118-122, 213-225, 350-386) -/

/-- `ReadAtOffset` (map.go lines 118-122): positional read of `Length` bytes
at `Start`.  The model reads from the in-memory file image and is total; Go's
I/O error path is not represented. -/
def ReadAtOffset (sh : ConcurrentMapShared) (offset : ShardOffset) : List Nat :=
  (sh.file.drop offset.Start).take offset.Length

/-- `FindByUniqueKey` (map.go lines 217-225).  Note the source returns the
bytes whenever the key is bound, with no test of the `Deleted` flag. -/
def FindByUniqueKey (sh : ConcurrentMapShared) (key value : Str) :
    Except String (List Nat) :=
  match sh.getItem (key ++ ':' :: value) with
  | some item => Except.ok (ReadAtOffset sh item)
  | none => Except.error ("not found")

/-- `FindById` (map.go lines 213-215). -/
def FindById (sh : ConcurrentMapShared) (id : Str) : Except String (List Nat) :=
  FindByUniqueKey sh (str ("id")) id

/-- `Get` (map.go lines 350-358): hash-routed point read returning the
descriptor pointer and a presence flag. -/
def ConcurrentMap.Get (m : ConcurrentMap) (key : Str) : Option Nat × Bool :=
  (alGet (m.GetShard key).Items key, (alGet (m.GetShard key).Items key).isSome)

/-- `Has` (map.go lines 373-381). -/
def ConcurrentMap.Has (m : ConcurrentMap) (key : Str) : Bool :=
  (alGet (m.GetShard key).Items key).isSome

/-- `Count` (map.go lines 361-370): sum of `len(shard.Items)` over shard
indices `0 ≤ i < SHARD_COUNT`. -/
def ConcurrentMap.Count (m : ConcurrentMap) : Nat :=
  (List.range SHARD_COUNT).foldl
    (fun count i => count + ((m.Shared.get? i).getD default).Items.length) 0

/-! ### Logical deletion and restore by unique key (map.go lines 156-178) -/

/-- `DeleteByUniqueKey` (map.go lines 170-178): set `Deleted` through the
pointer if the key is bound, else report the not-found error. -/
def DeleteByUniqueKey (sh : ConcurrentMapShared) (key value : Str) :
    Except String ConcurrentMapShared :=
  if (alGet sh.Items (key ++ ':' :: value)).isSome then
    Except.ok (sh.setDeletedKey (key ++ ':' :: value) true)
  else Except.error ("object under specified unique key was not found")

/-- `DeleteById` (map.go lines 166-168). -/
def DeleteById (sh : ConcurrentMapShared) (id : Str) : Except String ConcurrentMapShared :=
  DeleteByUniqueKey sh (str ("id")) id

/-- `RestoreByUniqueKey` (map.go lines 156-164). -/
def RestoreByUniqueKey (sh : ConcurrentMapShared) (key value : Str) :
    Except String ConcurrentMapShared :=
  if (alGet sh.Items (key ++ ':' :: value)).isSome then
    Except.ok (sh.setDeletedKey (key ++ ':' :: value) false)
  else Except.error ("object footprint was already evicted")

/-- Engine-level `DeleteByUniqueKey`: the Go method mutates, through the
passed shard pointer, the shard the engine owns at index `i`. -/
def ConcurrentMap.DeleteByUniqueKeyAt (m : ConcurrentMap) (i : Nat) (key value : Str) :
    Except String ConcurrentMap :=
  match m.Shared.get? i with
  | some sh => (DeleteByUniqueKey sh key value).map (m.setShardAt i)
  | none => Except.error ("no shard")

/-- Engine-level `DeleteById`. -/
def ConcurrentMap.DeleteByIdAt (m : ConcurrentMap) (i : Nat) (id : Str) :
    Except String ConcurrentMap :=
  match m.Shared.get? i with
  | some sh => (DeleteById sh id).map (m.setShardAt i)
  | none => Except.error ("no shard")

/-- Engine-level `RestoreByUniqueKey`. -/
def ConcurrentMap.RestoreByUniqueKeyAt (m : ConcurrentMap) (i : Nat) (key value : Str) :
    Except String ConcurrentMap :=
  match m.Shared.get? i with
  | some sh => (RestoreByUniqueKey sh key value).map (m.setShardAt i)
  | none => Except.error ("no shard")

/-! ### Set (map.go lines 287-347) -/

/-- The unbounded upward probe of Set's non-unique branch
(`for { if exists { index++ } else { break } }`).  `fuel` is a modelling
bound; Set passes one more than the number of index entries, which the probe,
visiting pairwise distinct keys, can never exhaust — `probe_stops` below
proves the probe always ends on an unbound key, as the Go loop does. -/
def probe (items : List (Str × Nat)) (fullKey : Str) : Nat → Nat → Nat
  | 0, index => index
  | fuel + 1, index =>
    if (alGet items (ordKey index fullKey)).isSome then
      probe items fullKey fuel (index + 1)
    else index

/-- The index-installation loop of `Set` (map.go lines 316-342), threading the
shard and the `destMap` under construction.  On a unique-key collision the Go
method returns at once, leaving every entry installed so far in place; the
pair returned here carries that partially updated shard beside the error. -/
def installLoop (pId dIdx : Nat) :
    ConcurrentMapShared → List (Str × Nat) → List FullDataIndex →
    Except String (List (Str × Nat)) × ConcurrentMapShared
  | sh, destMap, [] => (Except.ok destMap, sh)
  | sh, destMap, ix :: rest =>
    let fullKey := ix.Field ++ ':' :: ix.Data
    if ix.Unique then
      if (alGet sh.Items fullKey).isSome then
        (Except.error ("unique primary key duplicate"), sh)
      else
        installLoop pId dIdx {sh with Items := alSet sh.Items fullKey dIdx}
          (alSet destMap fullKey pId) rest
    else
      let index := probe sh.Items fullKey (sh.Items.length + 1) (sh.GetCapacityKey fullKey)
      let lastAvailable := ordKey index fullKey
      installLoop pId dIdx
        {sh with Items := alSet sh.Items lastAvailable dIdx,
                 capacity := alSet sh.capacity fullKey index}
        (alSet destMap lastAvailable pId) rest

/-- The file-append prefix of `Set` (map.go lines 300-314): seek to
end-of-file, write the encoded bytes, and allocate the one offset descriptor
the call's index entries will all share. -/
def setAppend (sh : ConcurrentMapShared) (encodedData : List Nat) : ConcurrentMapShared :=
  {sh with file := sh.file ++ encodedData,
           descs := sh.descs ++ [⟨sh.file.length, encodedData.length, false⟩]}

/-- The shard-local body of `Set` (map.go lines 287-347) after the target
shard is chosen: append the encoded bytes at end-of-file, build one offset
descriptor shared by every index entry of the call, run the installation
loop, and finally install the identity entry `"id:<id>"`.  The record id
(from the external xid package) and the encoded payload (from the Codec,
outside src/) enter as parameters. -/
def SetInShard (sh : ConcurrentMapShared) (idStr : Str) (encodedData : List Nat)
    (indexData : Option (List FullDataIndex)) :
    Except String (List (Str × Nat)) × ConcurrentMapShared :=
  let dIdx := sh.descs.length
  let sh1 : ConcurrentMapShared := setAppend sh encodedData
  match installLoop sh1.Id dIdx sh1 [] (indexData.getD []) with
  | (Except.error e, sh') => (Except.error e, sh')
  | (Except.ok destMap, sh') =>
    let idKey := 'i' :: 'd' :: ':' :: idStr
    (Except.ok (alSet destMap idKey sh1.Id),
      {sh' with Items := alSet sh'.Items idKey dIdx})

/-- Engine-level `Set`: pick the round-robin shard and run the shard body. -/
def ConcurrentMap.Set (m : ConcurrentMap) (idStr : Str) (encodedData : List Nat)
    (indexData : Option (List FullDataIndex)) :
    Except String (List (Str × Nat)) × ConcurrentMap :=
  let p := m.getNextShardIdx
  match p.2.Shared.get? p.1 with
  | some sh =>
    let q := SetInShard sh idStr encodedData indexData
    (q.1, p.2.setShardAt p.1 q.2)
  | none => (Except.error ("no shard"), p.2)

/-! ### Fan-out scans (map.go lines 124-154, 180-211, 227-285) -/

/-- One shard's ordinal scan of `FindByKey`/`FindByKeyInShard` (map.go lines
234-251 and 261-281; the two loops are textually identical).  The Go loop is
`for { ... i++ }`: `continue` on a deleted descriptor skips the trailing
`i++`, so the iteration repeats with the same state.  `fuel` makes each
repetition explicit; `none` means the fuel ran out, and a loop that repeats a
state returns `none` for every fuel. -/
def findInShardLoop (sh : ConcurrentMapShared) (kv : Str) (limit : Nat) :
    Nat → Nat → List (List Nat) → Option (List (List Nat) × Bool)
  | 0, _, _ => none
  | fuel + 1, i, results =>
    match sh.getItem (itoaChars i ++ kv) with
    | some item =>
      if item.Deleted then findInShardLoop sh kv limit fuel i results
      else
        let results' := results ++ [ReadAtOffset sh item]
        if results'.length = limit then some (results', true)
        else findInShardLoop sh kv limit fuel (i + 1) results'
    | none => some (results, false)

/-- `FindByKeyInShard` (map.go lines 227-253). -/
def FindByKeyInShard (sh : ConcurrentMapShared) (key value : Str) (limit fuel : Nat) :
    Option (List (List Nat)) :=
  match findInShardLoop sh (':' :: (key ++ ':' :: value)) limit fuel 0 [] with
  | none => none
  | some (results, _) => some results

/-- The shard fan-out of `FindByKey` (map.go lines 258-283): shards in
ascending index order, results accumulated across shards, early return when
the limit is reached. -/
def findByKeyShards (kv : Str) (limit fuel : Nat) :
    List ConcurrentMapShared → List (List Nat) → Option (List (List Nat))
  | [], results => some results
  | sh :: rest, results =>
    match findInShardLoop sh kv limit fuel 0 results with
    | none => none
    | some (results', true) => some results'
    | some (results', false) => findByKeyShards kv limit fuel rest results'

/-- `FindByKey` (map.go lines 255-285). -/
def ConcurrentMap.FindByKey (m : ConcurrentMap) (key value : Str) (limit fuel : Nat) :
    Option (List (List Nat)) :=
  findByKeyShards (':' :: (key ++ ':' :: value)) limit fuel m.Shared []

/-- One shard's downward scan of `DeleteByKey` (map.go lines 190-207).  The
loop body ends in `i++` and the loop post-statement is `i--`: after flipping
a live descriptor the same ordinal is examined again (now deleted, hence
skipped via `continue`, which goes straight to `i--`). -/
def deleteLoop (en : Str) (limit : Nat) :
    Nat → Int → ConcurrentMapShared → Nat → List Str →
    Option (ConcurrentMapShared × Nat × List Str × Bool)
  | 0, _, _, _, _ => none
  | fuel + 1, i, sh, counter, acc =>
    if i < 0 then some (sh, counter, acc, false)
    else
      let tempKey := itoaChars i.toNat ++ en
      match sh.getItem tempKey with
      | some item =>
        if item.Deleted then deleteLoop en limit fuel (i - 1) sh counter acc
        else
          let sh' := sh.setDeletedKey tempKey true
          let acc' := acc ++ [tempKey]
          let counter' := counter + 1
          if counter' = limit then some (sh', counter', acc', true)
          else deleteLoop en limit fuel (i + 1 - 1) sh' counter' acc'
      | none => some (sh, counter, acc, false)

/-- The shard fan-out of `DeleteByKey` (map.go lines 180-211), threading the
global counter and the accumulated deleted keys across shards. -/
def deleteByKeyShards (kv en : Str) (limit fuel : Nat) :
    List ConcurrentMapShared → Nat → List Str →
    Option (List ConcurrentMapShared × List Str)
  | [], _, acc => some ([], acc)
  | sh :: rest, counter, acc =>
    match deleteLoop en limit fuel ((sh.GetCapacityKey kv : Int) - 1) sh counter acc with
    | none => none
    | some (sh', _, acc', true) => some (sh' :: rest, acc')
    | some (sh', counter', acc', false) =>
      match deleteByKeyShards kv en limit fuel rest counter' acc' with
      | none => none
      | some (rest', accFinal) => some (sh' :: rest', accFinal)

/-- `DeleteByKey` (map.go lines 180-211). -/
def ConcurrentMap.DeleteByKey (m : ConcurrentMap) (key value : Str) (limit fuel : Nat) :
    Option (ConcurrentMap × List Str) :=
  let kv := key ++ ':' :: value
  match deleteByKeyShards kv (':' :: kv) limit fuel m.Shared 0 [] with
  | none => none
  | some (shards, acc) => some ({m with Shared := shards}, acc)

/-- One shard's downward scan of `RestoreByKey` (map.go lines 133-149):
symmetric to `deleteLoop` but selecting descriptors currently marked deleted
and clearing the flag. -/
def restoreLoop (en : Str) (limit : Nat) :
    Nat → Int → ConcurrentMapShared → Nat →
    Option (ConcurrentMapShared × Nat × Bool)
  | 0, _, _, _ => none
  | fuel + 1, i, sh, counter =>
    if i < 0 then some (sh, counter, false)
    else
      let tempKey := itoaChars i.toNat ++ en
      match sh.getItem tempKey with
      | some item =>
        if !item.Deleted then restoreLoop en limit fuel (i - 1) sh counter
        else
          let sh' := sh.setDeletedKey tempKey false
          let counter' := counter + 1
          if counter' = limit then some (sh', counter', true)
          else restoreLoop en limit fuel (i + 1 - 1) sh' counter'
      | none => some (sh, counter, false)

/-- The shard fan-out of `RestoreByKey` (map.go lines 124-154).  After a
shard's scan completes without reaching the limit, the source executes
`shard.SetCapacityKey(kv, length+counter)` with the shard's own `length` but
the globally accumulated `counter`; on reaching the limit it returns `limit`
at once, skipping that write for the current and all later shards. -/
def restoreByKeyShards (kv en : Str) (limit fuel : Nat) :
    List ConcurrentMapShared → Nat → Option (List ConcurrentMapShared × Nat)
  | [], counter => some ([], counter)
  | sh :: rest, counter =>
    let length := sh.GetCapacityKey kv
    match restoreLoop en limit fuel ((length : Int) - 1) sh counter with
    | none => none
    | some (sh', _, true) => some (sh' :: rest, limit)
    | some (sh', counter', false) =>
      let sh'' := sh'.SetCapacityKey kv (length + counter')
      match restoreByKeyShards kv en limit fuel rest counter' with
      | none => none
      | some (rest', counterFinal) => some (sh'' :: rest', counterFinal)

/-- `RestoreByKey` (map.go lines 124-154). -/
def ConcurrentMap.RestoreByKey (m : ConcurrentMap) (key value : Str) (limit fuel : Nat) :
    Option (ConcurrentMap × Nat) :=
  let kv := key ++ ':' :: value
  match restoreByKeyShards kv (':' :: kv) limit fuel m.Shared 0 with
  | none => none
  | some (shards, counter) => some ({m with Shared := shards}, counter)

/-- A fresh shard as `NewConcurrentMapShared` produces it at engine open. -/
def mkShard (i : Nat) : ConcurrentMapShared := ⟨i, [], [], [], []⟩

/-- A fresh engine as `NewConcurrentMap` produces it: 32 empty shards,
counter 0. -/
def mkMap : ConcurrentMap := ⟨(List.range SHARD_COUNT).map mkShard, 0⟩

/-- Decidable equality for results, so that concrete runs can be checked by
`decide`. -/
instance {ε α : Type} [DecidableEq ε] [DecidableEq α] : DecidableEq (Except ε α) := fun x y =>
  match x, y with
  | Except.ok a, Except.ok b =>
    if h : a = b then Decidable.isTrue (congrArg Except.ok h)
    else Decidable.isFalse (fun hh => h (Except.ok.inj hh))
  | Except.error a, Except.error b =>
    if h : a = b then Decidable.isTrue (congrArg Except.error h)
    else Decidable.isFalse (fun hh => h (Except.error.inj hh))
  | Except.ok _, Except.error _ => Decidable.isFalse (fun hh => Except.noConfusion hh)
  | Except.error _, Except.ok _ => Decidable.isFalse (fun hh => Except.noConfusion hh)

/-! ### Small list-access lemmas -/

theorem listGet?_some_lt {α : Type} : ∀ (l : List α) (i : Nat) (a : α),
    l.get? i = some a → i < l.length := by
  intro l
  induction l with
  | nil => intro i a h; simp [List.get?] at h
  | cons x xs ih =>
    intro i a h
    cases i with
    | zero => simp
    | succ j =>
      simp only [List.get?] at h
      have := ih j a h
      simp only [List.length_cons]
      omega

theorem listGet?_set_self {α : Type} : ∀ (l : List α) (i : Nat) (a : α),
    i < l.length → (l.set i a).get? i = some a := by
  intro l
  induction l with
  | nil => intro i a h; simp at h
  | cons x xs ih =>
    intro i a h
    cases i with
    | zero => rfl
    | succ j =>
      simp only [List.set, List.get?]
      exact ih j a (by simp at h; omega)

theorem listGet?_append_len {α : Type} : ∀ (l : List α) (a : α),
    (l ++ [a]).get? l.length = some a := by
  intro l a
  induction l with
  | nil => rfl
  | cons x xs ih =>
    simp only [List.cons_append, List.length_cons, List.get?]
    exact ih

/-! ### Frame lemmas for the flag-flip operations -/

theorem setDeletedKey_Items (sh : ConcurrentMapShared) (k : Str) (b : Bool) :
    (sh.setDeletedKey k b).Items = sh.Items := by
  unfold ConcurrentMapShared.setDeletedKey
  cases hx : alGet sh.Items k with
  | none => rfl
  | some i => rfl

/-- After Set's counter advance, `Set` leaves the counter where
`GetNextShard` put it, whichever routing branch is taken. -/
theorem set_counter (m : ConcurrentMap) (idStr : Str) (enc : List Nat)
    (ds : Option (List FullDataIndex)) :
    (m.Set idStr enc ds).2.counter = m.getNextShardIdx.2.counter := by
  simp only [ConcurrentMap.Set]
  cases hg : m.getNextShardIdx.2.Shared.get? m.getNextShardIdx.1 with
  | none => simp [hg]
  | some sh => simp [hg, ConcurrentMap.setShardAt]

/-! ### Claim C4 -/

/-- Counterexample to claim C4 as stated: on the key "a" the hash computed by
the source (`fnv32`, which multiplies before XORing) differs from the FNV-1a
hash the claim describes, and the two select different shards. -/
theorem fnv32_is_not_fnv1a :
    fnv32 (str ("a")) = 84696446 ∧ fnv32Claim (str ("a")) = 3826002220 ∧
    getShardIdx (str ("a")) = 30 ∧ fnv32Claim (str ("a")) % SHARD_COUNT = 12 := by
  refine ⟨by decide, by decide, by decide, by decide⟩

/-- C4 (amended): GetShard selects the shard at index fnv32(key) mod
SHARD_COUNT, where fnv32 is the FNV-1 32-bit hash of the key's UTF-8 bytes:
seed 2166136261 and, per byte, multiply the hash by the prime 16777619 in
32-bit modular arithmetic and then XOR the byte in. -/
theorem getShard_uses_fnv1 :
    (∀ (m : ConcurrentMap) (key : Str),
      m.GetShard key = (m.Shared.get? (fnv32 key % SHARD_COUNT)).getD default) ∧
    fnvBytes [] = 2166136261 ∧
    (∀ (bs : List Nat) (b : Nat),
      fnvBytes (bs ++ [b]) = (fnvBytes bs * 16777619 % 4294967296) ^^^ b) ∧
    (∀ key : Str, fnv32 key = fnvBytes (strBytes key)) := by
  refine ⟨fun m key => rfl, rfl, fun bs b => ?_, fun key => rfl⟩
  simp [fnvBytes, List.foldl_append]

/-! ### Claim C7 -/

/-- C7: SetCounterIndex fails with the invalid-value error exactly when the
value is outside [0, SHARD_COUNT) (for an unsigned value that means ≥ 32) and
otherwise installs the value as the counter; after SetCounterIndex 5 the next
Set pre-increments the counter and lands on shard 6; SetCounterIndex 32 is
rejected. -/
theorem setCounterIndex_spec (m : ConcurrentMap) (v : Nat) :
    (m.SetCounterIndex v = Except.error ("invalid value") ↔ SHARD_COUNT ≤ v) ∧
    (v < SHARD_COUNT → m.SetCounterIndex v = Except.ok {m with counter := v}) ∧
    (({m with counter := 5} : ConcurrentMap).getNextShardIdx =
      (6, {m with counter := 6})) ∧
    (∀ idStr enc ds,
      ((({m with counter := 5} : ConcurrentMap).Set idStr enc ds).2.counter = 6)) ∧
    (m.SetCounterIndex 32 = Except.error ("invalid value")) := by
  refine ⟨⟨fun h => ?_, fun h => ?_⟩, fun h => ?_, ?_, ?_, ?_⟩
  · by_contra hv
    simp [ConcurrentMap.SetCounterIndex, hv] at h
  · simp [ConcurrentMap.SetCounterIndex, h]
  · simp [ConcurrentMap.SetCounterIndex, Nat.not_le.mpr h]
  · simp [ConcurrentMap.getNextShardIdx]
  · intro idStr enc ds
    rw [set_counter]
    simp [ConcurrentMap.getNextShardIdx]
  · simp [ConcurrentMap.SetCounterIndex, SHARD_COUNT]

/-- Witness for C7 at concrete inputs. -/
theorem setCounterIndex_spec_witness :
    mkMap.SetCounterIndex 5 = Except.ok {mkMap with counter := 5} ∧ 5 < SHARD_COUNT :=
  ⟨(setCounterIndex_spec mkMap 5).2.1 (by decide), by decide⟩

/-! ### Claim C10 -/

/-- The engine state and Set result after one round-robin Set of the unique
key "a:b" on a fresh engine (the Set lands on shard 1; "a:b" hashes to
shard 2). -/
def c10Pair := mkMap.Set (str ("x1")) [1, 2] (some [⟨str ("a"), str ("b"), true⟩])

/-- C10: Has and Get consult only the shard selected by hashing, while Set
placed the key by round-robin: after a successful Set of unique key "a:b"
into shard 1, the key sits in shard 1's offset index, yet Has returns false
and Get reports absence because fnv32("a:b") mod 32 = 2. -/
theorem hash_read_misses_round_robin_write :
    (c10Pair.1 = Except.ok [(str ("a:b"), 1), (str ("id:x1"), 1)]) ∧
    (alGet ((c10Pair.2.Shared.get? 1).getD default).Items (str ("a:b")) = some 0) ∧
    (getShardIdx (str ("a:b")) = 2) ∧
    (c10Pair.2.Has (str ("a:b")) = false) ∧
    (c10Pair.2.Get (str ("a:b")) = (none, false)) := by
  refine ⟨by decide, by decide, by decide, by decide, by decide⟩

/-! ### Claim C1 -/

/-- A shard holding one record with unique key "k:v" and identity key "id:x",
both sharing descriptor 0 over bytes [1,2,3]. -/
def c1Shard : ConcurrentMapShared :=
  ⟨0, [(str ("k:v"), 0), (str ("id:x"), 0)], [⟨0, 3, false⟩], [], [1, 2, 3]⟩

/-- The same shard after the shared descriptor is marked deleted. -/
def c1Deleted : ConcurrentMapShared :=
  ⟨0, [(str ("k:v"), 0), (str ("id:x"), 0)], [⟨0, 3, true⟩], [], [1, 2, 3]⟩

/-- C1 (code divergence): after a successful DeleteByUniqueKey marks the
descriptor deleted, FindByUniqueKey — and FindById through the identity key
sharing the descriptor — still returns the payload bytes: map.go lines
221-222 return on any bound key without consulting the Deleted flag, where
the claim requires NotFound. -/
theorem findByUniqueKey_ignores_deleted :
    DeleteByUniqueKey c1Shard (str ("k")) (str ("v")) = Except.ok c1Deleted ∧
    (c1Deleted.getItem (str ("k:v"))).map ShardOffset.Deleted = some true ∧
    FindByUniqueKey c1Deleted (str ("k")) (str ("v")) = Except.ok [1, 2, 3] ∧
    FindById c1Deleted (str ("x")) = Except.ok [1, 2, 3] ∧
    FindByUniqueKey c1Deleted (str ("k")) (str ("v")) ≠ Except.error ("not found") := by
  refine ⟨by decide, by decide, by decide, by decide, by decide⟩

/-! ### Claim C3 -/

/-- A shard whose only entry for fingerprint "tag:red" is the ordinal-0 key,
marked deleted. -/
def c3Shard : ConcurrentMapShared :=
  ⟨0, [(str ("0:tag:red"), 0)], [⟨0, 1, true⟩], [(str ("tag:red"), 0)], [9]⟩

/-- An engine whose shard 0 is `c3Shard` and whose other shards are empty. -/
def c3Map : ConcurrentMap := ⟨c3Shard :: (List.range 31).map (fun i => mkShard (i + 1)), 0⟩

/-- On `c3Shard` the ordinal scan hits the deleted ordinal-0 entry, `continue`
skips the trailing `i++`, and the loop state repeats verbatim, so every fuel
is exhausted. -/
theorem c3_loop_stuck : ∀ (fuel : Nat) (res : List (List Nat)),
    findInShardLoop c3Shard (str (":tag:red")) 10 fuel 0 res = none := by
  intro fuel
  induction fuel with
  | zero => intro res; rfl
  | succ f ih =>
    intro res
    have h : findInShardLoop c3Shard (str (":tag:red")) 10 (f + 1) 0 res =
        findInShardLoop c3Shard (str (":tag:red")) 10 f 0 res := rfl
    rw [h]
    exact ih res

/-- C3 (code divergence): with a deleted descriptor at a scanned ordinal the
ordinal scan of FindByKey never advances (`continue` inside `for { ... i++ }`
skips the trailing increment), so the call diverges — no fuel yields a
result — where the claim requires termination.  FindByKeyInShard contains the
identical loop and diverges on the same shard. -/
theorem findByKey_diverges_on_deleted : ∀ fuel : Nat,
    c3Map.FindByKey (str ("tag")) (str ("red")) 10 fuel = none ∧
    FindByKeyInShard c3Shard (str ("tag")) (str ("red")) 10 fuel = none := by
  intro fuel
  have hkv : (':' :: (str ("tag") ++ ':' :: str ("red"))) = str (":tag:red") := rfl
  constructor
  · show findByKeyShards (':' :: (str ("tag") ++ ':' :: str ("red"))) 10 fuel
      (c3Shard :: (List.range 31).map (fun i => mkShard (i + 1))) [] = none
    rw [hkv]
    simp only [findByKeyShards, c3_loop_stuck fuel []]
  · show (match findInShardLoop c3Shard (':' :: (str ("tag") ++ ':' :: str ("red"))) 10 fuel 0 []
      with
      | none => none
      | some (results, _) => some results) = none
    rw [hkv, c3_loop_stuck fuel []]

/-! ### Claim C5 -/

/-- A shard with two non-unique entries for fingerprint "t:r" (ordinals 0 and
1, capacity 1 = highest assigned), ordinal 0 deleted. -/
def c5Shard : ConcurrentMapShared :=
  ⟨0, [(str ("0:t:r"), 0), (str ("1:t:r"), 1)], [⟨0, 1, true⟩, ⟨1, 1, false⟩],
    [(str ("t:r"), 1)], [8, 9]⟩

/-- An engine whose shard 0 is `c5Shard` and whose other shards are empty. -/
def c5Map : ConcurrentMap := ⟨c5Shard :: (List.range 31).map (fun i => mkShard (i + 1)), 0⟩

/-- C5 (code divergence): RestoreByKey with limit 5 restores the one deleted
descriptor but does not leave the capacity maps unchanged: map.go line 150
executes `shard.SetCapacityKey(kv, length+counter)` with the globally
accumulated counter, writing capacity 2 into shard 0 — whose highest assigned
ordinal is still 1 — and writing capacity 1 for "t:r" into shard 1 (and every
other untouched shard), which holds no such fingerprint at all.  The offset
indexes themselves are untouched and exactly one descriptor was restored. -/
theorem restoreByKey_mutates_capacity :
    ((c5Map.RestoreByKey (str ("t")) (str ("r")) 5 10).map
      (fun p => (((p.1.Shared.get? 0).getD default).GetCapacityKey (str ("t:r")),
        ((p.1.Shared.get? 1).getD default).GetCapacityKey (str ("t:r")), p.2))) =
      some (2, 1, 1) ∧
    c5Shard.GetCapacityKey (str ("t:r")) = 1 ∧
    (mkShard 1).GetCapacityKey (str ("t:r")) = 0 ∧
    ((c5Map.RestoreByKey (str ("t")) (str ("r")) 5 10).map
      (fun p => ((p.1.Shared.get? 0).getD default).Items)) = some c5Shard.Items ∧
    ((c5Map.RestoreByKey (str ("t")) (str ("r")) 5 10).map
      (fun p => ((p.1.Shared.get? 0).getD default).descs)) =
      some [⟨0, 1, false⟩, ⟨1, 1, false⟩] := by
  refine ⟨by decide, by decide, by decide, by decide, by decide⟩

/-! ### Claim C9 -/

theorem listGet?_set_ne {α : Type} : ∀ (l : List α) (i j : Nat) (a : α), i ≠ j →
    (l.set i a).get? j = l.get? j := by
  intro l
  induction l with
  | nil => intro i j a h; rfl
  | cons x xs ih =>
    intro i j a h
    cases i with
    | zero =>
      cases j with
      | zero => exact absurd rfl h
      | succ j' => rfl
    | succ i' =>
      cases j with
      | zero => rfl
      | succ j' =>
        simp only [List.set, List.get?]
        exact ih i' j' a (fun hh => h (by rw [hh]))

/-- Pointwise equality of every shard's offset index. -/
def sameItems (m m' : ConcurrentMap) : Prop :=
  ∀ j, (m'.Shared.get? j).map ConcurrentMapShared.Items =
    (m.Shared.get? j).map ConcurrentMapShared.Items

theorem foldl_add_congr (F G : Nat → Nat) (h : ∀ i, F i = G i) :
    ∀ (l : List Nat) (acc : Nat),
      l.foldl (fun c i => c + F i) acc = l.foldl (fun c i => c + G i) acc := by
  intro l
  induction l with
  | nil => intro acc; rfl
  | cons x xs ih =>
    intro acc
    simp only [List.foldl]
    rw [h x]
    exact ih _

theorem count_eq_of_sameItems (m m' : ConcurrentMap) (h : sameItems m m') :
    m'.Count = m.Count := by
  unfold ConcurrentMap.Count
  apply foldl_add_congr
  intro i
  have hi := h i
  cases hm : m.Shared.get? i with
  | none =>
    cases hm' : m'.Shared.get? i with
    | none => rfl
    | some sh' => rw [hm, hm'] at hi; simp at hi
  | some sh =>
    cases hm' : m'.Shared.get? i with
    | none => rw [hm, hm'] at hi; simp at hi
    | some sh' =>
      rw [hm, hm'] at hi
      simp at hi
      simp [hi]

theorem sameItems_setShardAt (m : ConcurrentMap) (i : Nat) (sh sh' : ConcurrentMapShared)
    (hg : m.Shared.get? i = some sh) (hI : sh'.Items = sh.Items) :
    sameItems m (m.setShardAt i sh') := by
  intro j
  simp only [ConcurrentMap.setShardAt]
  by_cases hj : i = j
  · subst hj
    rw [listGet?_set_self _ _ _ (listGet?_some_lt _ _ _ hg), hg]
    simp [hI]
  · rw [listGet?_set_ne _ _ _ _ hj]

theorem setCapacityKey_Items (sh : ConcurrentMapShared) (k : Str) (v : Nat) :
    (sh.SetCapacityKey k v).Items = sh.Items := rfl

theorem deleteByUniqueKeyAt_sameItems (m m' : ConcurrentMap) (i : Nat) (key value : Str)
    (h : m.DeleteByUniqueKeyAt i key value = Except.ok m') : sameItems m m' := by
  unfold ConcurrentMap.DeleteByUniqueKeyAt at h
  cases hg : m.Shared.get? i with
  | none => rw [hg] at h; cases h
  | some sh =>
    rw [hg] at h
    unfold DeleteByUniqueKey at h
    by_cases hk : (alGet sh.Items (key ++ ':' :: value)).isSome
    · simp only [hk, if_true, Except.map, Except.ok.injEq] at h
      rw [← h]
      exact sameItems_setShardAt m i sh _ hg (setDeletedKey_Items sh _ true)
    · simp [hk, Except.map] at h

theorem restoreByUniqueKeyAt_sameItems (m m' : ConcurrentMap) (i : Nat) (key value : Str)
    (h : m.RestoreByUniqueKeyAt i key value = Except.ok m') : sameItems m m' := by
  unfold ConcurrentMap.RestoreByUniqueKeyAt at h
  cases hg : m.Shared.get? i with
  | none => rw [hg] at h; cases h
  | some sh =>
    rw [hg] at h
    unfold RestoreByUniqueKey at h
    by_cases hk : (alGet sh.Items (key ++ ':' :: value)).isSome
    · simp only [hk, if_true, Except.map, Except.ok.injEq] at h
      rw [← h]
      exact sameItems_setShardAt m i sh _ hg (setDeletedKey_Items sh _ false)
    · simp [hk, Except.map] at h

theorem deleteLoop_Items (en : Str) (limit : Nat) :
    ∀ (fuel : Nat) (i : Int) (sh : ConcurrentMapShared) (counter : Nat) (acc : List Str)
      (sh' : ConcurrentMapShared) (c' : Nat) (a' : List Str) (e : Bool),
      deleteLoop en limit fuel i sh counter acc = some (sh', c', a', e) →
      sh'.Items = sh.Items := by
  intro fuel
  induction fuel with
  | zero => intro i sh c acc sh' c' a' e h; cases h
  | succ f ih =>
    intro i sh c acc sh' c' a' e h
    simp only [deleteLoop] at h
    split at h
    · simp at h
      rw [h.1]
    · split at h
      · split at h
        · exact ih _ _ _ _ _ _ _ _ h
        · split at h
          · simp at h
            rw [← h.1, setDeletedKey_Items]
          · have := ih _ _ _ _ _ _ _ _ h
            rw [this, setDeletedKey_Items]
      · simp at h
        rw [h.1]

theorem restoreLoop_Items (en : Str) (limit : Nat) :
    ∀ (fuel : Nat) (i : Int) (sh : ConcurrentMapShared) (counter : Nat)
      (sh' : ConcurrentMapShared) (c' : Nat) (e : Bool),
      restoreLoop en limit fuel i sh counter = some (sh', c', e) →
      sh'.Items = sh.Items := by
  intro fuel
  induction fuel with
  | zero => intro i sh c sh' c' e h; cases h
  | succ f ih =>
    intro i sh c sh' c' e h
    simp only [restoreLoop] at h
    split at h
    · simp at h
      rw [h.1]
    · split at h
      · split at h
        · exact ih _ _ _ _ _ _ h
        · split at h
          · simp at h
            rw [← h.1, setDeletedKey_Items]
          · have := ih _ _ _ _ _ _ h
            rw [this, setDeletedKey_Items]
      · simp at h
        rw [h.1]

theorem deleteByKeyShards_Items (kv en : Str) (limit fuel : Nat) :
    ∀ (shards : List ConcurrentMapShared) (counter : Nat) (acc : List Str)
      (shards' : List ConcurrentMapShared) (acc' : List Str),
      deleteByKeyShards kv en limit fuel shards counter acc = some (shards', acc') →
      ∀ j, (shards'.get? j).map ConcurrentMapShared.Items =
        (shards.get? j).map ConcurrentMapShared.Items := by
  intro shards
  induction shards with
  | nil =>
    intro c acc s' a' h j
    simp [deleteByKeyShards] at h
    rw [h.1]
  | cons sh rest ih =>
    intro c acc s' a' h j
    simp only [deleteByKeyShards] at h
    split at h
    · cases h
    · rename_i sh1 c1 a1 heq
      simp at h
      rw [← h.1]
      cases j with
      | zero => simp [deleteLoop_Items en limit fuel _ sh c acc sh1 c1 a1 true heq]
      | succ j' => simp
    · rename_i sh1 c1 a1 heq
      split at h
      · cases h
      · rename_i rest' af hrec
        simp at h
        rw [← h.1]
        cases j with
        | zero => simp [deleteLoop_Items en limit fuel _ sh c acc sh1 c1 a1 false heq]
        | succ j' => simpa using ih c1 a1 rest' af hrec j'

theorem restoreByKeyShards_Items (kv en : Str) (limit fuel : Nat) :
    ∀ (shards : List ConcurrentMapShared) (counter : Nat)
      (shards' : List ConcurrentMapShared) (n : Nat),
      restoreByKeyShards kv en limit fuel shards counter = some (shards', n) →
      ∀ j, (shards'.get? j).map ConcurrentMapShared.Items =
        (shards.get? j).map ConcurrentMapShared.Items := by
  intro shards
  induction shards with
  | nil =>
    intro c s' n h j
    simp [restoreByKeyShards] at h
    rw [h.1]
  | cons sh rest ih =>
    intro c s' n h j
    simp only [restoreByKeyShards] at h
    split at h
    · cases h
    · rename_i sh1 c1 heq
      simp at h
      rw [← h.1]
      cases j with
      | zero => simp [restoreLoop_Items en limit fuel _ sh c sh1 c1 true heq]
      | succ j' => simp
    · rename_i sh1 c1 heq
      split at h
      · cases h
      · rename_i rest' nf hrec
        simp at h
        rw [← h.1]
        cases j with
        | zero =>
          simp [ConcurrentMapShared.SetCapacityKey,
            restoreLoop_Items en limit fuel _ sh c sh1 c1 false heq]
        | succ j' => simpa using ih c1 rest' nf hrec j'

/-- C9: DeleteByUniqueKey, DeleteById, DeleteByKey, RestoreByUniqueKey and
RestoreByKey leave every shard's offset index untouched (deletion and restore
only flip the Deleted flag through the shared descriptor pointer), so Count
is the same immediately before and after any completed call. -/
theorem logical_ops_preserve_count (m m' : ConcurrentMap) :
    (∀ i key value, m.DeleteByUniqueKeyAt i key value = Except.ok m' →
      sameItems m m' ∧ m'.Count = m.Count) ∧
    (∀ i id, m.DeleteByIdAt i id = Except.ok m' →
      sameItems m m' ∧ m'.Count = m.Count) ∧
    (∀ i key value, m.RestoreByUniqueKeyAt i key value = Except.ok m' →
      sameItems m m' ∧ m'.Count = m.Count) ∧
    (∀ key value limit fuel keys, m.DeleteByKey key value limit fuel = some (m', keys) →
      sameItems m m' ∧ m'.Count = m.Count) ∧
    (∀ key value limit fuel n, m.RestoreByKey key value limit fuel = some (m', n) →
      sameItems m m' ∧ m'.Count = m.Count) := by
  refine ⟨fun i key value h => ?_, fun i id h => ?_, fun i key value h => ?_,
    fun key value limit fuel keys h => ?_, fun key value limit fuel n h => ?_⟩
  · have hs := deleteByUniqueKeyAt_sameItems m m' i key value h
    exact ⟨hs, count_eq_of_sameItems m m' hs⟩
  · have hs := deleteByUniqueKeyAt_sameItems m m' i (str ("id")) id h
    exact ⟨hs, count_eq_of_sameItems m m' hs⟩
  · have hs := restoreByUniqueKeyAt_sameItems m m' i key value h
    exact ⟨hs, count_eq_of_sameItems m m' hs⟩
  · simp only [ConcurrentMap.DeleteByKey] at h
    split at h
    · cases h
    · rename_i shards' acc' hd
      simp at h
      have hs : sameItems m m' := by
        intro j
        rw [← h.1]
        exact deleteByKeyShards_Items _ _ limit fuel m.Shared 0 [] shards' acc' hd j
      exact ⟨hs, count_eq_of_sameItems m m' hs⟩
  · simp only [ConcurrentMap.RestoreByKey] at h
    split at h
    · cases h
    · rename_i shards' nf hd
      simp at h
      have hs : sameItems m m' := by
        intro j
        rw [← h.1]
        exact restoreByKeyShards_Items _ _ limit fuel m.Shared 0 shards' nf hd j
      exact ⟨hs, count_eq_of_sameItems m m' hs⟩

/-- A shard holding only an identity entry, and the engines used as concrete
instances for C9's witness. -/
def c9IdShard : ConcurrentMapShared := ⟨0, [(str ("id:x"), 0)], [⟨0, 1, false⟩], [], [7]⟩

def c9IdMap : ConcurrentMap := ⟨c9IdShard :: (List.range 31).map (fun i => mkShard (i + 1)), 0⟩

def c9W1 : ConcurrentMap := c5Map.setShardAt 0 (c5Shard.setDeletedKey (str ("1:t:r")) true)

def c9W2 : ConcurrentMap := c9IdMap.setShardAt 0 (c9IdShard.setDeletedKey (str ("id:x")) true)

def c9W3 : ConcurrentMap := c5Map.setShardAt 0 (c5Shard.setDeletedKey (str ("0:t:r")) false)

def c9WR : ConcurrentMap :=
  ⟨⟨0, [(str ("0:t:r"), 0), (str ("1:t:r"), 1)], [⟨0, 1, false⟩, ⟨1, 1, false⟩],
      [(str ("t:r"), 2)], [8, 9]⟩ ::
    (List.range 31).map (fun i => ⟨i + 1, [], [], [(str ("t:r"), 1)], []⟩), 0⟩

/-- Witness for C9: each of the five operations run on a concrete engine. -/
theorem logical_ops_preserve_count_witness :
    (sameItems c5Map c9W1 ∧ c9W1.Count = c5Map.Count) ∧
    (sameItems c9IdMap c9W2 ∧ c9W2.Count = c9IdMap.Count) ∧
    (sameItems c5Map c9W3 ∧ c9W3.Count = c5Map.Count) ∧
    (sameItems c5Map c5Map ∧ c5Map.Count = c5Map.Count) ∧
    (sameItems c5Map c9WR ∧ c9WR.Count = c5Map.Count) :=
  ⟨(logical_ops_preserve_count c5Map c9W1).1 0 (str ("1")) (str ("t:r")) (by decide),
   (logical_ops_preserve_count c9IdMap c9W2).2.1 0 (str ("x")) (by decide),
   (logical_ops_preserve_count c5Map c9W3).2.2.1 0 (str ("0")) (str ("t:r")) (by decide),
   (logical_ops_preserve_count c5Map c5Map).2.2.2.1 (str ("t")) (str ("r")) 1 10 []
     (by decide),
   (logical_ops_preserve_count c5Map c9WR).2.2.2.2 (str ("t")) (str ("r")) 5 10 1
     (by decide)⟩

/-! ### Properties of the Set installation loop (claims C6 and C8) -/

theorem installLoop_append (p i : Nat) :
    ∀ (pre rest : List FullDataIndex) (s s1 : ConcurrentMapShared)
      (dm dm1 : List (Str × Nat)),
      installLoop p i s dm pre = (Except.ok dm1, s1) →
      installLoop p i s dm (pre ++ rest) = installLoop p i s1 dm1 rest := by
  intro pre
  induction pre with
  | nil =>
    intro rest s s1 dm dm1 h
    simp only [installLoop] at h
    simp at h
    rw [List.nil_append, h.1, h.2]
  | cons ix pre' ih =>
    intro rest s s1 dm dm1 h
    simp only [List.cons_append, installLoop] at h ⊢
    by_cases hu : ix.Unique = true
    · by_cases hdup : (alGet s.Items (ix.Field ++ ':' :: ix.Data)).isSome
      · simp [hu, hdup] at h
      · simp only [hu, hdup, if_true, Bool.false_eq_true, if_false] at h ⊢
        exact ih rest _ _ _ _ h
    · simp only [hu, if_false] at h ⊢
      exact ih rest _ _ _ _ h

theorem installLoop_dup_error (p i : Nat) (s : ConcurrentMapShared)
    (dm : List (Str × Nat)) (d : FullDataIndex) (rest : List FullDataIndex)
    (hu : d.Unique = true) (hdup : (alGet s.Items (d.Field ++ ':' :: d.Data)).isSome) :
    installLoop p i s dm (d :: rest) =
      (Except.error ("unique primary key duplicate"), s) := by
  simp only [installLoop, hu, hdup, if_true]

theorem installLoop_file (p i : Nat) :
    ∀ (ds : List FullDataIndex) (s : ConcurrentMapShared) (dm : List (Str × Nat)),
      (installLoop p i s dm ds).2.file = s.file := by
  intro ds
  induction ds with
  | nil => intro s dm; rfl
  | cons ix rest ih =>
    intro s dm
    simp only [installLoop]
    by_cases hu : ix.Unique = true
    · by_cases hdup : (alGet s.Items (ix.Field ++ ':' :: ix.Data)).isSome
      · simp [hu, hdup]
      · simp [hu, hdup, ih]
    · simp [hu, ih]

theorem installLoop_descs (p i : Nat) :
    ∀ (ds : List FullDataIndex) (s : ConcurrentMapShared) (dm : List (Str × Nat)),
      (installLoop p i s dm ds).2.descs = s.descs := by
  intro ds
  induction ds with
  | nil => intro s dm; rfl
  | cons ix rest ih =>
    intro s dm
    simp only [installLoop]
    by_cases hu : ix.Unique = true
    · by_cases hdup : (alGet s.Items (ix.Field ++ ':' :: ix.Data)).isSome
      · simp [hu, hdup]
      · simp [hu, hdup, ih]
    · simp [hu, ih]

theorem installLoop_ok_destMap (p i : Nat) :
    ∀ (ds : List FullDataIndex) (s s1 : ConcurrentMapShared)
      (dm dm1 : List (Str × Nat)),
      installLoop p i s dm ds = (Except.ok dm1, s1) →
      (∀ k, (alGet dm k).isSome → alGet s.Items k = some i) →
      ∀ k, (alGet dm1 k).isSome → alGet s1.Items k = some i := by
  intro ds
  induction ds with
  | nil =>
    intro s s1 dm dm1 h hpre k hk
    simp only [installLoop] at h
    simp at h
    rw [← h.2]
    exact hpre k (h.1 ▸ hk)
  | cons ix rest ih =>
    intro s s1 dm dm1 h hpre k hk
    simp only [installLoop] at h
    by_cases hu : ix.Unique = true
    · by_cases hdup : (alGet s.Items (ix.Field ++ ':' :: ix.Data)).isSome
      · simp [hu, hdup] at h
      · simp only [hu, hdup, if_true, Bool.false_eq_true, if_false] at h
        refine ih _ _ _ _ h ?_ k hk
        intro k' hk'
        by_cases hkf : k' = ix.Field ++ ':' :: ix.Data
        · subst hkf
          exact alGet_alSet_self s.Items _ i
        · rw [alGet_alSet_ne _ _ _ _ hkf]
          apply hpre
          rcases alGet_isSome_of_alSet dm k' _ p hk' with hold | heq
          · exact hold
          · exact absurd heq hkf
    · simp only [hu, if_false] at h
      refine ih _ _ _ _ h ?_ k hk
      intro k' hk'
      by_cases hkf : k' = ordKey (probe s.Items (ix.Field ++ ':' :: ix.Data)
          (s.Items.length + 1) (s.GetCapacityKey (ix.Field ++ ':' :: ix.Data)))
          (ix.Field ++ ':' :: ix.Data)
      · subst hkf
        exact alGet_alSet_self s.Items _ i
      · rw [alGet_alSet_ne _ _ _ _ hkf]
        apply hpre
        rcases alGet_isSome_of_alSet dm k' _ p hk' with hold | heq
        · exact hold
        · exact absurd heq hkf

theorem installLoop_ok_mono (p i : Nat) :
    ∀ (ds : List FullDataIndex) (s s1 : ConcurrentMapShared)
      (dm dm1 : List (Str × Nat)),
      installLoop p i s dm ds = (Except.ok dm1, s1) →
      ∀ k, (alGet dm k).isSome → (alGet dm1 k).isSome := by
  intro ds
  induction ds with
  | nil =>
    intro s s1 dm dm1 h k hk
    simp only [installLoop] at h
    simp at h
    exact h.1 ▸ hk
  | cons ix rest ih =>
    intro s s1 dm dm1 h k hk
    simp only [installLoop] at h
    by_cases hu : ix.Unique = true
    · by_cases hdup : (alGet s.Items (ix.Field ++ ':' :: ix.Data)).isSome
      · simp [hu, hdup] at h
      · simp only [hu, hdup, if_true, Bool.false_eq_true, if_false] at h
        exact ih _ _ _ _ h k (alGet_alSet_isSome dm k _ p hk)
    · simp only [hu, if_false] at h
      exact ih _ _ _ _ h k (alGet_alSet_isSome dm k _ p hk)

theorem installLoop_covers (p i : Nat) :
    ∀ (ds : List FullDataIndex) (s s1 : ConcurrentMapShared)
      (dm dm1 : List (Str × Nat)),
      installLoop p i s dm ds = (Except.ok dm1, s1) →
      ∀ d ∈ ds, (d.Unique = true → (alGet dm1 (d.Field ++ ':' :: d.Data)).isSome) ∧
        (d.Unique = false →
          ∃ n, (alGet dm1 (ordKey n (d.Field ++ ':' :: d.Data))).isSome) := by
  intro ds
  induction ds with
  | nil => intro s s1 dm dm1 h d hd; cases hd
  | cons ix rest ih =>
    intro s s1 dm dm1 h d hd
    simp only [installLoop] at h
    by_cases hu : ix.Unique = true
    · by_cases hdup : (alGet s.Items (ix.Field ++ ':' :: ix.Data)).isSome
      · simp [hu, hdup] at h
      · simp only [hu, hdup, if_true, Bool.false_eq_true, if_false] at h
        rcases List.mem_cons.mp hd with rfl | hd'
        · refine ⟨fun _ => ?_, fun hfalse => absurd hu (by simp [hfalse])⟩
          exact installLoop_ok_mono p i rest _ _ _ _ h _
            (by rw [alGet_alSet_self]; rfl)
        · exact ih _ _ _ _ h d hd'
    · simp only [hu, if_false] at h
      rcases List.mem_cons.mp hd with rfl | hd'
      · refine ⟨fun htrue => absurd htrue hu, fun _ => ?_⟩
        refine ⟨probe s.Items (d.Field ++ ':' :: d.Data) (s.Items.length + 1)
          (s.GetCapacityKey (d.Field ++ ':' :: d.Data)), ?_⟩
        exact installLoop_ok_mono p i rest _ _ _ _ h _
          (by rw [alGet_alSet_self]; rfl)
      · exact ih _ _ _ _ h d hd'

/-- Flipping Deleted through one key is observed through any other key bound
to the same arena slot. -/
theorem setDeletedKey_shared_view (s : ConcurrentMapShared) (k1 k2 : Str) (i : Nat)
    (d : ShardOffset) (b : Bool) (h1 : alGet s.Items k1 = some i)
    (h2 : alGet s.Items k2 = some i) (hd : s.descs.get? i = some d) :
    ((s.setDeletedKey k1 b).getItem k2).map ShardOffset.Deleted = some b := by
  have hlen : i < s.descs.length := listGet?_some_lt _ _ _ hd
  simp only [ConcurrentMapShared.setDeletedKey, listModify, h1, hd,
    ConcurrentMapShared.getItem, h2]
  rw [listGet?_set_self _ _ _ hlen]
  rfl

/-! ### Claim C6 -/

/-- C6: when Set reaches a unique descriptor whose composed key is already
bound in the target shard, it fails with the duplicate-key error and returns
with the shard exactly as the preceding descriptors left it: the bytes
appended to the file stay appended and every index entry installed for
earlier descriptors of the same call stays bound to the call's descriptor. -/
theorem set_duplicate_not_rolled_back (sh s1 : ConcurrentMapShared) (idStr : Str)
    (enc : List Nat) (pre post : List FullDataIndex) (d : FullDataIndex)
    (dm1 : List (Str × Nat))
    (hpre : installLoop sh.Id sh.descs.length (setAppend sh enc) [] pre =
      (Except.ok dm1, s1))
    (hu : d.Unique = true)
    (hdup : (alGet s1.Items (d.Field ++ ':' :: d.Data)).isSome) :
    SetInShard sh idStr enc (some (pre ++ d :: post)) =
      (Except.error ("unique primary key duplicate"), s1) ∧
    s1.file = sh.file ++ enc ∧
    (∀ k, (alGet dm1 k).isSome → alGet s1.Items k = some sh.descs.length) := by
  have hstep := installLoop_append sh.Id sh.descs.length pre (d :: post) _ s1 [] dm1 hpre
  have herr := installLoop_dup_error sh.Id sh.descs.length s1 dm1 d post hu hdup
  refine ⟨?_, ?_, ?_⟩
  · simp only [SetInShard, Option.getD]
    rw [show (setAppend sh enc).Id = sh.Id from rfl]
    rw [hstep, herr]
  · have hs1 : s1 = (installLoop sh.Id sh.descs.length (setAppend sh enc) [] pre).2 := by
      rw [hpre]
    rw [hs1, installLoop_file]
    rfl
  · intro k hk
    refine installLoop_ok_destMap sh.Id sh.descs.length pre _ s1 [] dm1 hpre ?_ k hk
    intro k' hk'
    simp [alGet] at hk'

/-- Witness data for C6: the same unique descriptor supplied twice in one
call. -/
def c6d : FullDataIndex := ⟨str ("u"), str ("1"), true⟩

/-- The shard state Set leaves behind for C6's witness: file bytes appended,
descriptor allocated, and the first copy's index entry installed. -/
def c6s1 : ConcurrentMapShared := ⟨0, [(str ("u:1"), 0)], [⟨0, 1, false⟩], [], [7]⟩

/-- Witness for C6 at a concrete input. -/
theorem set_duplicate_not_rolled_back_witness :
    (SetInShard (mkShard 0) (str ("x")) [7] (some ([c6d] ++ c6d :: [])) =
      (Except.error ("unique primary key duplicate"), c6s1)) ∧
    c6s1.file = (mkShard 0).file ++ [7] ∧
    (∀ k, (alGet [(str ("u:1"), 0)] k).isSome →
      alGet c6s1.Items k = some (mkShard 0).descs.length) :=
  set_duplicate_not_rolled_back (mkShard 0) c6s1 (str ("x")) [7] [c6d] [] c6d
    [(str ("u:1"), 0)] (by decide) (by decide) (by decide)

/-! ### Claim C8 -/

/-- C8: a successful Set installs the identity entry plus one entry per
supplied descriptor, all bound to the single descriptor the call allocated
(arena index `sh.descs.length`, the model of the shared `&offset` pointer),
and flipping Deleted through any one of the call's keys is observed through
every other one. -/
theorem set_entries_share_descriptor (sh s' : ConcurrentMapShared) (idStr : Str)
    (enc : List Nat) (ds : List FullDataIndex) (dm : List (Str × Nat))
    (h : SetInShard sh idStr enc (some ds) = (Except.ok dm, s')) :
    (alGet dm ('i' :: 'd' :: ':' :: idStr)).isSome ∧
    (∀ d ∈ ds, (d.Unique = true → (alGet dm (d.Field ++ ':' :: d.Data)).isSome) ∧
      (d.Unique = false →
        ∃ n, (alGet dm (ordKey n (d.Field ++ ':' :: d.Data))).isSome)) ∧
    (∀ k, (alGet dm k).isSome → alGet s'.Items k = some sh.descs.length) ∧
    (∀ k1 k2, (alGet dm k1).isSome → (alGet dm k2).isSome → ∀ b,
      ((s'.setDeletedKey k1 b).getItem k2).map ShardOffset.Deleted = some b) := by
  simp only [SetInShard, Option.getD] at h
  split at h
  · simp at h
  · rename_i dm0 s0 heq
    simp at h
    obtain ⟨hdm, hs'⟩ := h
    have hItems : ∀ k, (alGet dm k).isSome →
        alGet s'.Items k = some sh.descs.length := by
      have hproj : s'.Items =
          alSet s0.Items ('i' :: 'd' :: ':' :: idStr) sh.descs.length := by
        rw [← hs']
      intro k hk
      rw [← hdm] at hk
      rw [hproj]
      by_cases hkid : k = 'i' :: 'd' :: ':' :: idStr
      · subst hkid
        exact alGet_alSet_self s0.Items _ _
      · rw [alGet_alSet_ne _ _ _ _ hkid]
        rcases alGet_isSome_of_alSet dm0 k _ _ hk with hold | heq2
        · refine installLoop_ok_destMap _ _ ds _ s0 [] dm0 heq ?_ k hold
          intro k' hk'
          simp [alGet] at hk'
        · exact absurd heq2 hkid
    have hdescs : s'.descs.get? sh.descs.length =
        some ⟨sh.file.length, enc.length, false⟩ := by
      have hds : s'.descs = s0.descs := by rw [← hs']
      have h0 := installLoop_descs (setAppend sh enc).Id sh.descs.length ds
        (setAppend sh enc) []
      rw [heq] at h0
      rw [hds, h0]
      exact listGet?_append_len sh.descs _
    refine ⟨?_, ?_, hItems, ?_⟩
    · rw [← hdm]
      rw [alGet_alSet_self]
      rfl
    · intro d hd
      have hc := installLoop_covers (setAppend sh enc).Id sh.descs.length ds
        (setAppend sh enc) s0 [] dm0 heq d hd
      constructor
      · intro hut
        rw [← hdm]
        exact alGet_alSet_isSome dm0 _ _ _ (hc.1 hut)
      · intro huf
        obtain ⟨n, hn⟩ := hc.2 huf
        exact ⟨n, by rw [← hdm]; exact alGet_alSet_isSome dm0 _ _ _ hn⟩
    · intro k1 k2 hk1 hk2 b
      exact setDeletedKey_shared_view s' k1 k2 sh.descs.length
        ⟨sh.file.length, enc.length, false⟩ b (hItems k1 hk1) (hItems k2 hk2) hdescs

/-- Witness data for C8: one unique and one non-unique descriptor. -/
def c8ds : List FullDataIndex := [⟨str ("u"), str ("1"), true⟩, ⟨str ("t"), str ("r"), false⟩]

/-- The destMap and shard state of C8's concrete Set. -/
def c8dm : List (Str × Nat) := [(str ("u:1"), 0), (str ("0:t:r"), 0), (str ("id:x"), 0)]

def c8s : ConcurrentMapShared :=
  ⟨0, [(str ("u:1"), 0), (str ("0:t:r"), 0), (str ("id:x"), 0)], [⟨0, 1, false⟩],
    [(str ("t:r"), 0)], [7]⟩

/-- Witness for C8 at a concrete input. -/
theorem set_entries_share_descriptor_witness :
    (alGet c8dm ('i' :: 'd' :: ':' :: str ("x"))).isSome ∧
    (∀ d ∈ c8ds, (d.Unique = true → (alGet c8dm (d.Field ++ ':' :: d.Data)).isSome) ∧
      (d.Unique = false →
        ∃ n, (alGet c8dm (ordKey n (d.Field ++ ':' :: d.Data))).isSome)) ∧
    (∀ k, (alGet c8dm k).isSome → alGet c8s.Items k = some (mkShard 0).descs.length) ∧
    (∀ k1 k2, (alGet c8dm k1).isSome → (alGet c8dm k2).isSome → ∀ b,
      ((c8s.setDeletedKey k1 b).getItem k2).map ShardOffset.Deleted = some b) :=
  set_entries_share_descriptor (mkShard 0) c8s (str ("x")) [7] c8ds c8dm (by decide)

/-! ### Claim C2 -/

/-- The density relation exactly as claim C2 words it: for each fingerprint
`f` the non-unique keys present are exactly the ordinals strictly below
`capacity[f]`.  Spec-side definition, kept to be compared with what the
source maintains. -/
def claimDensity (sh : ConcurrentMapShared) : Prop :=
  ∀ f i, (alGet sh.Items (ordKey i f)).isSome = true ↔ i < sh.GetCapacityKey f

/-- The shard after one Set of a single non-unique descriptor on a fresh
shard. -/
def c2After : ConcurrentMapShared :=
  (SetInShard (mkShard 0) (str ("x1")) [7] (some [⟨str ("tag"), str ("red"), false⟩])).2

/-- Counterexample to C2 as stated: after one successful Set with non-unique
fingerprint "tag:red", the key "0:tag:red" is present but capacity["tag:red"]
is 0 (the source stores the highest assigned ordinal, not the count), so the
claimed prefix {0, …, capacity-1} would be empty. -/
theorem density_claim_false : ¬ claimDensity c2After := by
  intro h
  have h0 := (h (str ("tag:red")) 0).mp (by decide)
  have h1 : c2After.GetCapacityKey (str ("tag:red")) = 0 := by decide
  rw [h1] at h0
  exact absurd h0 (by decide)

/-- Amended density invariant: for each fingerprint either the non-unique
keys form the contiguous set {0, …, k} with k = capacity[f] (capacity stores
the highest assigned ordinal), or there are none and capacity[f] is 0. -/
def densityInv (sh : ConcurrentMapShared) : Prop :=
  ∀ f : Str,
    (∀ i, (alGet sh.Items (ordKey i f)).isSome = true ↔ i ≤ sh.GetCapacityKey f) ∨
    (sh.GetCapacityKey f = 0 ∧ ∀ i, (alGet sh.Items (ordKey i f)).isSome = false)

theorem densityInv_mkShard (n : Nat) : densityInv (mkShard n) := by
  intro f
  right
  exact ⟨rfl, fun i => rfl⟩

theorem idKey_notOrd (idStr : Str) : notOrdinalForm ('i' :: 'd' :: ':' :: idStr) :=
  notOrdinalForm_of_head 'i' _ (by decide)

/-- When the keys of fingerprint `F` are exactly {0, …, k}, the probe started
at `k` with Set's fuel stops at `k + 1`. -/
theorem probe_full (s : ConcurrentMapShared) (F : Str) (k : Nat)
    (hiff : ∀ i, (alGet s.Items (ordKey i F)).isSome = true ↔ i ≤ k) :
    probe s.Items F (s.Items.length + 1) k = k + 1 := by
  have h1 : (alGet s.Items (ordKey k F)).isSome = true := (hiff k).mpr (le_refl k)
  have h2 : (alGet s.Items (ordKey (k + 1) F)).isSome = false := by
    cases hb : (alGet s.Items (ordKey (k + 1) F)).isSome with
    | true => exact absurd ((hiff (k + 1)).mp hb) (by omega)
    | false => rfl
  have hlen : ∃ n, s.Items.length = n + 1 := by
    cases hl : s.Items with
    | nil => rw [hl] at h1; simp [alGet] at h1
    | cons a l => exact ⟨l.length, rfl⟩
  obtain ⟨n, hn⟩ := hlen
  rw [hn]
  simp [probe, h1, h2]

/-- When no key of fingerprint `F` exists, the probe started at 0 stops
there. -/
theorem probe_empty (s : ConcurrentMapShared) (F : Str)
    (hnone : ∀ i, (alGet s.Items (ordKey i F)).isSome = false) :
    probe s.Items F (s.Items.length + 1) 0 = 0 := by
  simp [probe, hnone 0]

theorem getCapacityKey_update_self (s : ConcurrentMapShared) (I2 : List (Str × Nat))
    (F : Str) (j : Nat) :
    ({s with Items := I2, capacity := alSet s.capacity F j} :
      ConcurrentMapShared).GetCapacityKey F = j := by
  show (alGet (alSet s.capacity F j) F).getD 0 = j
  rw [alGet_alSet_self]
  rfl

theorem getCapacityKey_update_ne (s : ConcurrentMapShared) (I2 : List (Str × Nat))
    (F g : Str) (j : Nat) (h : g ≠ F) :
    ({s with Items := I2, capacity := alSet s.capacity F j} :
      ConcurrentMapShared).GetCapacityKey g = s.GetCapacityKey g := by
  show (alGet (alSet s.capacity F j) g).getD 0 = _
  rw [alGet_alSet_ne _ _ _ _ h]
  rfl

/-- Installing a unique entry whose key is not of ordinal shape preserves the
density invariant. -/
theorem densityInv_alSet_notOrd (s : ConcurrentMapShared) (K : Str) (v : Nat)
    (hK : notOrdinalForm K) (hinv : densityInv s) :
    densityInv {s with Items := alSet s.Items K v} := by
  intro f
  have hks : ∀ i, alGet (alSet s.Items K v) (ordKey i f) = alGet s.Items (ordKey i f) :=
    fun i => alGet_alSet_ne _ _ _ _ (fun hh => hK i f hh.symm)
  rcases hinv f with hl | hr
  · left
    intro i
    show (alGet (alSet s.Items K v) (ordKey i f)).isSome = true ↔ i ≤ s.GetCapacityKey f
    rw [hks i]
    exact hl i
  · right
    refine ⟨hr.1, fun i => ?_⟩
    show (alGet (alSet s.Items K v) (ordKey i f)).isSome = false
    rw [hks i]
    exact hr.2 i

/-- Installing a non-unique entry at the probed ordinal and recording that
ordinal in the capacity map preserves the density invariant. -/
theorem densityInv_install_nonuniq (s : ConcurrentMapShared) (F : Str) (v : Nat)
    (j : Nat) (hj : j = probe s.Items F (s.Items.length + 1) (s.GetCapacityKey F))
    (hinv : densityInv s) :
    densityInv {s with Items := alSet s.Items (ordKey j F) v,
                       capacity := alSet s.capacity F j} := by
  rcases hinv F with hfull | hempty
  · have hjv : j = s.GetCapacityKey F + 1 := by
      rw [hj, probe_full s F (s.GetCapacityKey F) hfull]
    intro f
    by_cases hf : f = F
    · subst hf
      left
      rw [getCapacityKey_update_self]
      intro i
      show (alGet (alSet s.Items (ordKey j f) v) (ordKey i f)).isSome = true ↔ i ≤ j
      by_cases hij : i = j
      · subst hij
        rw [alGet_alSet_self]
        simp
      · have hne : ordKey i f ≠ ordKey j f := fun hh => hij (ordKey_inj hh).1
        rw [alGet_alSet_ne _ _ _ _ hne, hfull i]
        omega
    · have hcap := getCapacityKey_update_ne s (alSet s.Items (ordKey j F) v) F f j hf
      have hks : ∀ i, alGet (alSet s.Items (ordKey j F) v) (ordKey i f) =
          alGet s.Items (ordKey i f) :=
        fun i => alGet_alSet_ne _ _ _ _ (fun hh => hf (ordKey_inj hh).2)
      rcases hinv f with hl | hr
      · left
        rw [hcap]
        intro i
        show (alGet (alSet s.Items (ordKey j F) v) (ordKey i f)).isSome = true ↔
          i ≤ s.GetCapacityKey f
        rw [hks i]
        exact hl i
      · right
        rw [hcap]
        refine ⟨hr.1, fun i => ?_⟩
        show (alGet (alSet s.Items (ordKey j F) v) (ordKey i f)).isSome = false
        rw [hks i]
        exact hr.2 i
  · have hjv : j = 0 := by
      rw [hj, hempty.1, probe_empty s F hempty.2]
    subst hjv
    intro f
    by_cases hf : f = F
    · subst hf
      left
      rw [getCapacityKey_update_self]
      intro i
      show (alGet (alSet s.Items (ordKey 0 f) v) (ordKey i f)).isSome = true ↔ i ≤ 0
      by_cases hij : i = 0
      · subst hij
        rw [alGet_alSet_self]
        simp
      · have hne : ordKey i f ≠ ordKey 0 f := fun hh => hij (ordKey_inj hh).1
        rw [alGet_alSet_ne _ _ _ _ hne, hempty.2 i]
        simp
        omega
    · have hcap := getCapacityKey_update_ne s (alSet s.Items (ordKey 0 F) v) F f 0 hf
      have hks : ∀ i, alGet (alSet s.Items (ordKey 0 F) v) (ordKey i f) =
          alGet s.Items (ordKey i f) :=
        fun i => alGet_alSet_ne _ _ _ _ (fun hh => hf (ordKey_inj hh).2)
      rcases hinv f with hl | hr
      · left
        rw [hcap]
        intro i
        show (alGet (alSet s.Items (ordKey 0 F) v) (ordKey i f)).isSome = true ↔
          i ≤ s.GetCapacityKey f
        rw [hks i]
        exact hl i
      · right
        rw [hcap]
        refine ⟨hr.1, fun i => ?_⟩
        show (alGet (alSet s.Items (ordKey 0 F) v) (ordKey i f)).isSome = false
        rw [hks i]
        exact hr.2 i

/-- The installation loop preserves the density invariant when every unique
descriptor's composed key is not of ordinal shape. -/
theorem installLoop_densityInv (p i : Nat) :
    ∀ (ds : List FullDataIndex) (s : ConcurrentMapShared) (dm : List (Str × Nat)),
      densityInv s →
      (∀ d ∈ ds, d.Unique = true → notOrdinalForm (d.Field ++ ':' :: d.Data)) →
      densityInv (installLoop p i s dm ds).2 := by
  intro ds
  induction ds with
  | nil => intro s dm hinv _; exact hinv
  | cons ix rest ih =>
    intro s dm hinv hu
    simp only [installLoop]
    by_cases hut : ix.Unique = true
    · by_cases hdup : (alGet s.Items (ix.Field ++ ':' :: ix.Data)).isSome
      · simp only [hut, hdup, if_true]
        exact hinv
      · simp only [hut, hdup, if_true, Bool.false_eq_true, if_false]
        refine ih _ _ ?_ (fun d hd => hu d (List.mem_cons_of_mem _ hd))
        exact densityInv_alSet_notOrd s _ i (hu ix (List.mem_cons_self _ _) hut) hinv
    · simp only [hut, if_false]
      refine ih _ _ ?_ (fun d hd => hu d (List.mem_cons_of_mem _ hd))
      exact densityInv_install_nonuniq s (ix.Field ++ ':' :: ix.Data) i _ rfl hinv

/-- C2 (amended): every successful Set whose unique descriptors' composed
keys are not themselves of the ordinal shape "<n>:<f>" preserves the density
invariant: for each fingerprint f the non-unique keys form the contiguous
set {"0:<f>", …, "<k>:<f>"} with k = capacity[f] — the capacity map records
the highest assigned ordinal, one less than the count — or are absent
entirely with capacity[f] = 0. -/
theorem set_preserves_density (sh s' : ConcurrentMapShared) (idStr : Str)
    (enc : List Nat) (ds : List FullDataIndex) (dm : List (Str × Nat))
    (hinv : densityInv sh)
    (huniq : ∀ d ∈ ds, d.Unique = true → notOrdinalForm (d.Field ++ ':' :: d.Data))
    (h : SetInShard sh idStr enc (some ds) = (Except.ok dm, s')) :
    densityInv s' := by
  simp only [SetInShard, Option.getD] at h
  split at h
  · simp at h
  · rename_i dm0 s0 heq
    simp at h
    obtain ⟨hdm, hs'⟩ := h
    have h0 : densityInv (setAppend sh enc) := hinv
    have h1 := installLoop_densityInv (setAppend sh enc).Id sh.descs.length ds
      (setAppend sh enc) [] h0 huniq
    have h2 : densityInv s0 := by rw [heq] at h1; exact h1
    have h3 := densityInv_alSet_notOrd s0 ('i' :: 'd' :: ':' :: idStr)
      sh.descs.length (idKey_notOrd idStr) h2
    rw [← hs']
    exact h3

/-! ### The probe fuel is never exhausted (justifies the bound in `probe`) -/

theorem alGet_isSome_mem {α : Type} : ∀ (l : List (Str × α)) (k : Str),
    (alGet l k).isSome = true → k ∈ l.map Prod.fst := by
  intro l
  induction l with
  | nil => intro k h; simp [alGet] at h
  | cons p rest ih =>
    intro k h
    obtain ⟨k0, v⟩ := p
    by_cases hk : k0 = k
    · subst hk
      exact List.mem_cons_self _ _
    · simp only [alGet, hk, if_false] at h
      simp only [List.map_cons, List.mem_cons]
      right
      exact ih k h

/-- If some probed ordinal within the fuel is free, the probe ends on a free
ordinal. -/
theorem probe_free (items : List (Str × Nat)) (F : Str) :
    ∀ (fuel idx : Nat),
      (∃ j, j < fuel ∧ (alGet items (ordKey (idx + j) F)).isSome = false) →
      (alGet items (ordKey (probe items F fuel idx) F)).isSome = false := by
  intro fuel
  induction fuel with
  | zero =>
    intro idx h
    obtain ⟨j, hj, _⟩ := h
    omega
  | succ f ih =>
    intro idx h
    cases hb : (alGet items (ordKey idx F)).isSome with
    | false => simp [probe, hb]
    | true =>
      simp only [probe, hb, if_true]
      obtain ⟨j, hj, hjs⟩ := h
      cases j with
      | zero =>
        rw [Nat.add_zero] at hjs
        rw [hjs] at hb
        cases hb
      | succ j' =>
        refine ih (idx + 1) ⟨j', by omega, ?_⟩
        rw [show idx + 1 + j' = idx + (j' + 1) from by omega]
        exact hjs

/-- Pigeonhole: among `items.length + 1` consecutive ordinals at least one
key is unbound, since the ordinal keys are pairwise distinct. -/
theorem probe_input_free (items : List (Str × Nat)) (F : Str) (idx : Nat) :
    ∃ j, j < items.length + 1 ∧
      (alGet items (ordKey (idx + j) F)).isSome = false := by
  by_contra hc
  push_neg at hc
  have hall : ∀ j, j < items.length + 1 →
      (alGet items (ordKey (idx + j) F)).isSome = true := by
    intro j hj
    cases hbb : (alGet items (ordKey (idx + j) F)).isSome with
    | false => exact absurd hbb (hc j hj)
    | true => rfl
  have hnodup : ((List.range (items.length + 1)).map
      (fun j => ordKey (idx + j) F)).Nodup := by
    refine (List.nodup_range _).map ?_
    intro a b hab
    have := ordKey_inj hab
    omega
  have hsub : ((List.range (items.length + 1)).map (fun j => ordKey (idx + j) F)) ⊆
      items.map Prod.fst := by
    intro x hx
    obtain ⟨j, hj, rfl⟩ := List.mem_map.mp hx
    exact alGet_isSome_mem items _ (hall j (List.mem_range.mp hj))
  have hle := (List.subperm_of_subset hnodup hsub).length_le
  simp at hle

/-- With the fuel `Set` passes — one more than the number of index entries —
the probe always ends on an unbound ordinal key, exactly as the unbounded Go
loop does: the model's fuel is never the reason the probe stops. -/
theorem probe_stops (items : List (Str × Nat)) (F : Str) (idx : Nat) :
    (alGet items (ordKey (probe items F (items.length + 1) idx) F)).isSome = false :=
  probe_free items F (items.length + 1) idx (probe_input_free items F idx)

/-- Witness data for C2: one non-unique and one unique descriptor set on a
fresh shard. -/
def c2ds : List FullDataIndex :=
  [⟨str ("tag"), str ("red"), false⟩, ⟨str ("email"), str ("a"), true⟩]

def c2dm : List (Str × Nat) :=
  [(str ("0:tag:red"), 0), (str ("email:a"), 0), (str ("id:x1"), 0)]

def c2W : ConcurrentMapShared :=
  ⟨0, [(str ("0:tag:red"), 0), (str ("email:a"), 0), (str ("id:x1"), 0)],
    [⟨0, 1, false⟩], [(str ("tag:red"), 0)], [7]⟩

/-- Witness for C2's amended theorem at a concrete input. -/
theorem set_preserves_density_witness : densityInv c2W :=
  set_preserves_density (mkShard 0) c2W (str ("x1")) [7] c2ds c2dm
    (densityInv_mkShard 0)
    (fun d hd hu => by
      rcases List.mem_cons.mp hd with rfl | hd'
      · exact absurd hu (by decide)
      · rcases List.mem_cons.mp hd' with rfl | hd''
        · exact notOrdinalForm_of_head 'e' _ (by decide)
        · cases hd'')
    (by decide)

end Shardb
